import Mathlib

/-!
# Verification of the makei build orchestration module (`makei/build.py`)

Shallow embedding of the `BuildEnv` class: the `_read_rules_mks` worklist
traversal, the `_create_build_vars` variable-resolution fold, the include-path
rendering, the `make` output classification, the target resolution in
`__init__`, and the temporary-file lifecycle (`tmp_files`, `_post_make`,
`__del__`).

Paths are modelled as lists of segments relative to the source root
(`src_dir`), so the root `Rules.mk` is `["Rules.mk"]` and
`src_dir / subdir / "Rules.mk"` is `[subdir, "Rules.mk"]`.

The helper modules `rules_mk.py`, `ibmi_json.py`, `iproj_json.py` and
`utils.py` are not part of the sources under review; where their behaviour
matters it is modelled from the specification and marked as such.
-/

namespace Makei

/-- A filesystem path relative to the project source root, as segments. -/
abbrev FPath := List String

/-- Modelled from the spec: the per-directory build descriptor (`RulesMk`,
from makei/rules_mk.py which is outside the reviewed sources): a list of
(target name, source file list) entries and a list of subdirectory names. -/
structure RulesMkData where
  targets : List (String × List String)
  subdirs : List String
deriving DecidableEq

/-- The filesystem's `Rules.mk` files: an association of descriptor paths to
parsed descriptors.  A path absent from the list is a non-existent file. -/
abbrev RulesFS := List (FPath × RulesMkData)

/-- `rules_mk.exists()` / parsing: look a descriptor path up in the tree. -/
def fsLookup (fs : RulesFS) (p : FPath) : Option RulesMkData :=
  (fs.find? (fun kv => kv.1 == p)).map (fun kv => kv.2)

/-- The target map (`map_to_targets` in `_read_rules_mks`), a Python dict.
Insertion conses at the front and lookup takes the first hit, which models
dict overwrite (last write wins). -/
abbrev TMap := List (String × String)

/-- Dict lookup: the most recent binding for `k`. -/
def tmFind (m : TMap) (k : String) : Option String :=
  (m.find? (fun kv => kv.1 == k)).map (fun kv => kv.2)

/-- Dict assignment `m[k] = v`. -/
def tmInsert (m : TMap) (k v : String) : TMap :=
  (k, v) :: m

/-- build.py lines 94-96: for every `(target, src_list)` entry of the
descriptor, record `map_to_targets[src] = target` for each listed source. -/
def recordTargets (m : TMap) (tgts : List (String × List String)) : TMap :=
  tgts.foldl (fun acc tv => tv.2.foldl (fun a s => tmInsert a s tv.1) acc) m

/-- `rules_mk.containing_dir.name`: the base name of the directory holding
the descriptor.  For the root descriptor `["Rules.mk"]` this is the source
directory's own base name `rootName`. -/
def containingDirName (rootName : String) (p : FPath) : String :=
  match p.dropLast.getLast? with
  | some s => s
  | none => rootName

/-- build.py lines 94-98: one descriptor's contribution to the target map:
all of its source entries, then `map_to_targets[dir.name] = "dir_" + dir.name`
for the containing directory. -/
def processDescriptor (rootName : String) (m : TMap) (p : FPath) (r : RulesMkData) : TMap :=
  tmInsert (recordTargets m r.targets) (containingDirName rootName p)
    ("dir_" ++ containingDirName rootName p)

/-- build.py line 99: the descriptor paths pushed for a descriptor's declared
subdirectories, each resolved against the source root:
`self.src_dir / subdir / "Rules.mk"`. -/
def subdirRulesMkPaths (r : RulesMkData) : List FPath :=
  r.subdirs.map (fun s => [s, "Rules.mk"])

/-- build.py lines 90-99, the worklist loop of `_read_rules_mks`, with a fuel
counter bounding the number of `while` iterations (the Python loop has no
such bound; `none` means the fuel ran out with work remaining).

The Python list is used as a stack: `pop()` removes the last element and
`extend` appends, so here the worklist is kept reversed (head = next pop) and
an `extend [a, b, c]` becomes prepending `[c, b, a]`.  Besides the target map
the embedding accumulates `vis`, the list of descriptor paths whose file
existed and was parsed, in processing order. -/
def readAux (fs : RulesFS) (rootName : String) :
    Nat → List FPath → TMap → List FPath → Option (TMap × List FPath)
  | _, [], m, vis => some (m, vis)
  | 0, _ :: _, _, _ => none
  | fuel + 1, p :: rest, m, vis =>
    match fsLookup fs p with
    | none => readAux fs rootName fuel rest m vis
    | some r =>
      readAux fs rootName fuel ((subdirRulesMkPaths r).reverse ++ rest)
        (processDescriptor rootName m p r) (vis ++ [p])

/-- `_read_rules_mks`: run the worklist loop from `[src_dir / "Rules.mk"]`
with an empty map, returning the resulting target map. -/
def readRulesMks (fs : RulesFS) (rootName : String) (fuel : Nat) : Option TMap :=
  (readAux fs rootName fuel [["Rules.mk"]] [] []).map Prod.fst

/-- The visit trace of `_read_rules_mks`: which descriptor files were parsed,
in order. -/
def readVisits (fs : RulesFS) (rootName : String) (fuel : Nat) : Option (List FPath) :=
  (readAux fs rootName fuel [["Rules.mk"]] [] []).map Prod.snd

/-- Convenience: the final target-map binding of `key` after a full
traversal, or `none` when the traversal ran out of fuel or has no binding. -/
def lookupResult (fs : RulesFS) (rootName : String) (fuel : Nat) (key : String) :
    Option String :=
  match readRulesMks fs rootName fuel with
  | some m => tmFind m key
  | none => none

/-! ### Concrete trees used to settle the traversal claims -/

/-- A tree whose subdirectory references form a cycle: the root declares
subdirectory `a`, and `a`'s descriptor declares subdirectory `a` again. -/
def fsCycle : RulesFS :=
  [(["Rules.mk"], ⟨[], ["a"]⟩), (["a", "Rules.mk"], ⟨[], ["a"]⟩)]

/-- A tree where the root descriptor lists a source file named `sub` and also
declares a subdirectory named `sub`. -/
def fsDirClash : RulesFS :=
  [(["Rules.mk"], ⟨[("t1", ["sub"])], ["sub"]⟩), (["sub", "Rules.mk"], ⟨[], []⟩)]

/-- A tree whose root declares a dangling subdirectory `ghost` (no descriptor
exists at `["ghost", "Rules.mk"]`). -/
def fsGhost : RulesFS :=
  [(["Rules.mk"], ⟨[("t", ["f1"])], ["ghost"]⟩)]

/-- A tree exercising root-relative subdirectory resolution: the descriptor
at `a` declares subdirectory `b`; descriptors exist both at `a/b` (what a
descriptor-relative walk would read) and at `b` (what a root-relative walk
reads). -/
def fsRootRel : RulesFS :=
  [(["Rules.mk"], ⟨[], ["a"]⟩),
   (["a", "Rules.mk"], ⟨[], ["b"]⟩),
   (["a", "b", "Rules.mk"], ⟨[("tAB", ["x.ab"])], []⟩),
   (["b", "Rules.mk"], ⟨[("tB", ["x.b"])], []⟩)]

/-- On `fsCycle`, once the worklist holds `a`'s descriptor path it holds it
again after every iteration, for any map and visit state. -/
lemma readAux_cycle_stuck (rootName : String) :
    ∀ fuel m vis,
      readAux fsCycle rootName fuel [["a", "Rules.mk"]] m vis = none := by
  intro fuel
  induction fuel with
  | zero => intro m vis; rfl
  | succ n ih =>
    intro m vis
    simp only [readAux, show fsLookup fsCycle ["a", "Rules.mk"] = some ⟨[], ["a"]⟩ from rfl]
    rw [show ((subdirRulesMkPaths (⟨[], ["a"]⟩ : RulesMkData)).reverse ++ ([] : List FPath)) =
      [["a", "Rules.mk"]] from rfl]
    exact ih _ _

/-- On the cyclic tree the whole traversal runs out of any amount of fuel. -/
lemma readRulesMks_cycle (rootName : String) (fuel : Nat) :
    readRulesMks fsCycle rootName fuel = none := by
  cases fuel with
  | zero => rfl
  | succ n =>
    simp only [readRulesMks, readAux,
      show fsLookup fsCycle ["Rules.mk"] = some ⟨[], ["a"]⟩ from rfl]
    rw [show ((subdirRulesMkPaths (⟨[], ["a"]⟩ : RulesMkData)).reverse ++ ([] : List FPath)) =
      [["a", "Rules.mk"]] from rfl]
    rw [readAux_cycle_stuck]
    rfl

/-- **C1, counterexample.**  On the two-descriptor tree `fsCycle`, whose
subdirectory references form a cycle (`a` declares subdirectory `a`), the
`_read_rules_mks` worklist loop never empties its worklist: there is no
number of iterations after which it returns.  The loop keeps no visited set,
so the claimed cycle-safe termination fails. -/
theorem c1_cycle_no_termination :
    ¬ ∃ fuel m, readRulesMks fsCycle "root" fuel = some m := by
  rintro ⟨fuel, m, h⟩
  rw [readRulesMks_cycle] at h
  exact Option.noConfusion h

/-- **C2, counterexample.**  On `fsDirClash` the root descriptor maps source
file `sub` to target `t1`, and the subdirectory `sub` later stores its
directory entry under the bare key `"sub"` — not under a prefixed key — so
the directory-derived entry overwrites the file-derived entry for source
`sub`: the final binding is `dir_sub`, and `t1` is no longer reachable. -/
theorem c2_dir_key_collides :
    readRulesMks fsDirClash "root" 3 =
      some [("sub", "dir_sub"), ("root", "dir_root"), ("sub", "t1")] ∧
    lookupResult fsDirClash "root" 3 "sub" = some "dir_sub" ∧
    ("dir_sub" : String) ≠ "t1" := by decide

/-- **C2, amended.**  In `_read_rules_mks` the reserved `dir_` marker is on
the directory entry's *value* (the synthetic target name), not on its key:
after processing any descriptor, the containing directory's bare base name is
bound to `"dir_" ++ name`.  Since the key is the bare name it can collide
with a file-derived key, and the later write wins. -/
theorem c2_dir_value_marked (rootName : String) (m : TMap) (p : FPath) (r : RulesMkData) :
    tmFind (processDescriptor rootName m p r) (containingDirName rootName p) =
      some ("dir_" ++ containingDirName rootName p) := by
  simp [processDescriptor, tmInsert, tmFind, List.find?_cons_of_pos]

/-- **C4, counterexample.**  On `fsGhost` the root declares a subdirectory
`ghost` whose descriptor path does not exist.  The traversal completes
normally — no `DanglingReferenceError`, no abort: the dangling reference is
silently skipped exactly like a legitimately absent descriptor, and the rest
of the map is built. -/
theorem c4_dangling_is_silent :
    readRulesMks fsGhost "root" 3 = some [("root", "dir_root"), ("f1", "t")] ∧
    readVisits fsGhost "root" 3 = some [["Rules.mk"]] := by decide

/-- **C4, amended.**  `_read_rules_mks` treats every non-existent descriptor
path identically: the `rules_mk.exists()` test fails, the path is popped and
skipped with no error, no map entry and no visit, whether the path came from
a dangling subdirectory reference or from a directory that legitimately has
no descriptor.  The builder makes no distinction and never aborts. -/
theorem c4_missing_descriptor_skipped (fs : RulesFS) (rootName : String) (fuel : Nat)
    (p : FPath) (rest : List FPath) (m : TMap) (vis : List FPath)
    (h : fsLookup fs p = none) :
    readAux fs rootName (fuel + 1) (p :: rest) m vis =
      readAux fs rootName fuel rest m vis := by
  simp [readAux, h]

/-- Witness for `c4_missing_descriptor_skipped` at the dangling reference of
`fsGhost`. -/
theorem c4_missing_descriptor_skipped_witness :
    readAux fsGhost "root" 1 [["ghost", "Rules.mk"]] [] [] =
      readAux fsGhost "root" 0 [] [] [] :=
  c4_missing_descriptor_skipped fsGhost "root" 0 ["ghost", "Rules.mk"] [] [] [] (by decide)

/-- Every path the traversal ever visits has at most two segments
(`["Rules.mk"]` or `[subdir, "Rules.mk"]`), because pushed paths are always
resolved against the source root. -/
lemma readAux_visits_short (fs : RulesFS) (rootName : String) :
    ∀ fuel ws m vis mv,
      (∀ p ∈ ws, p.length ≤ 2) → (∀ p ∈ vis, p.length ≤ 2) →
      readAux fs rootName fuel ws m vis = some mv →
      ∀ p ∈ mv.2, p.length ≤ 2 := by
  intro fuel
  induction fuel with
  | zero =>
    intro ws m vis mv hws hvis h
    cases ws with
    | nil =>
      simp only [readAux, Option.some.injEq] at h
      subst h
      exact hvis
    | cons a t => exact absurd h (by simp [readAux])
  | succ n ih =>
    intro ws m vis mv hws hvis h
    cases ws with
    | nil =>
      simp only [readAux, Option.some.injEq] at h
      subst h
      exact hvis
    | cons p rest =>
      cases hl : fsLookup fs p with
      | none =>
        simp only [readAux, hl] at h
        exact ih rest m vis mv (fun q hq => hws q (List.mem_cons_of_mem _ hq)) hvis h
      | some r =>
        simp only [readAux, hl] at h
        refine ih _ _ _ mv ?_ ?_ h
        · intro q hq
          rcases List.mem_append.mp hq with hq | hq
          · rcases List.mem_map.mp (List.mem_reverse.mp hq) with ⟨s, _, rfl⟩
            simp [subdirRulesMkPaths]
          · exact hws q (List.mem_cons_of_mem _ hq)
        · intro q hq
          rcases List.mem_append.mp hq with hq | hq
          · exact hvis q hq
          · rcases List.mem_singleton.mp hq with rfl
            exact hws q (List.mem_cons_self _ _)

/-- **C10.**  Subdirectory descriptor paths are resolved against the source
root, never against the declaring descriptor's own directory.  First:
every descriptor path the traversal ever reads has the root-relative shape
`src_dir / subdir / "Rules.mk"` (at most two segments), so a descriptor two
levels down such as `a/b/Rules.mk` is never read.  Second, concretely on
`fsRootRel`: the descriptor at `a` declares subdirectory `b`, and the walk
reads `b/Rules.mk` (recording `x.b ↦ tB`) instead of `a/b/Rules.mk` (whose
entry `x.ab` never appears). -/
theorem c10_subdirs_resolved_against_root :
    (∀ fs rootName fuel vis, readVisits fs rootName fuel = some vis →
      ∀ p ∈ vis, p.length ≤ 2) ∧
    lookupResult fsRootRel "root" 6 "x.b" = some "tB" ∧
    lookupResult fsRootRel "root" 6 "x.ab" = none := by
  refine ⟨?_, by decide, by decide⟩
  intro fs rootName fuel vis h
  rcases Option.map_eq_some'.mp h with ⟨mv, hmv, rfl⟩
  exact readAux_visits_short fs rootName fuel [["Rules.mk"]] [] [] mv
    (by intro p hp; rcases List.mem_singleton.mp hp with rfl; decide)
    (by intro p hp; cases hp) hmv

/-- Witness for `c10_subdirs_resolved_against_root` at `fsRootRel`: the
second visited descriptor path, `a/Rules.mk`, has two segments. -/
theorem c10_subdirs_resolved_against_root_witness :
    (["a", "Rules.mk"] : FPath).length ≤ 2 :=
  c10_subdirs_resolved_against_root.1 fsRootRel "root" 6
    [["Rules.mk"], ["a", "Rules.mk"], ["b", "Rules.mk"]] (by decide)
    ["a", "Rules.mk"] (by decide)

/-! ### Tree-shaped reference structures

For the amended C1 the reference structure reachable from the root must be a
tree: no cycles and no repeated references.  `DirTree` is such a structure:
each node carries the descriptor path it stands for, and its children stand
for the descriptor paths the node's declared subdirectories resolve to.  A
node whose path has no descriptor file on disk is a leaf (the traversal
skips it). -/

/-- A tree of descriptor references. -/
inductive DirTree : Type where
  | node : FPath → List DirTree → DirTree

/-- The descriptor path a tree node stands for. -/
def DirTree.path : DirTree → FPath
  | .node p _ => p

mutual

/-- Number of nodes: one worklist iteration is spent per node. -/
def DirTree.size : DirTree → Nat
  | .node _ cs => 1 + forestSize cs

/-- Total size of a list of trees. -/
def forestSize : List DirTree → Nat
  | [] => 0
  | t :: ts => DirTree.size t + forestSize ts

end

mutual

/-- The paths of the tree's nodes whose descriptor file exists — the
reachable descriptors the traversal actually parses. -/
def DirTree.presentPaths (fs : RulesFS) : DirTree → List FPath
  | .node p cs =>
    (if (fsLookup fs p).isSome then [p] else []) ++ presentForest fs cs

/-- `DirTree.presentPaths` over a list of trees. -/
def presentForest (fs : RulesFS) : List DirTree → List FPath
  | [] => []
  | t :: ts => DirTree.presentPaths fs t ++ presentForest fs ts

end

/-- Well-formedness of a reference tree against the filesystem: a leaf whose
path has no descriptor, or a node whose path holds a descriptor `r` and whose
children stand, in order, for the paths `r`'s subdirectory declarations
resolve to. -/
inductive TWF (fs : RulesFS) : DirTree → Prop where
  | miss {p : FPath} : fsLookup fs p = none → TWF fs (.node p [])
  | node {p : FPath} {cs : List DirTree} {r : RulesMkData} :
      fsLookup fs p = some r →
      cs.map DirTree.path = subdirRulesMkPaths r →
      (∀ c ∈ cs, TWF fs c) → TWF fs (.node p cs)

lemma forestSize_append (a b : List DirTree) :
    forestSize (a ++ b) = forestSize a + forestSize b := by
  induction a with
  | nil => simp [forestSize]
  | cons t ts ih => simp [forestSize, ih]; omega

lemma forestSize_reverse (l : List DirTree) :
    forestSize l.reverse = forestSize l := by
  induction l with
  | nil => rfl
  | cons t ts ih =>
    simp [List.reverse_cons, forestSize_append, forestSize, ih]
    omega

lemma presentForest_append (fs : RulesFS) (a b : List DirTree) :
    presentForest fs (a ++ b) = presentForest fs a ++ presentForest fs b := by
  induction a with
  | nil => simp [presentForest]
  | cons t ts ih => simp [presentForest, ih]

lemma presentForest_reverse_perm (fs : RulesFS) (l : List DirTree) :
    List.Perm (presentForest fs l.reverse) (presentForest fs l) := by
  induction l with
  | nil => exact List.Perm.refl _
  | cons t ts ih =>
    rw [List.reverse_cons, presentForest_append]
    have h3 : presentForest fs [t] ++ presentForest fs ts = presentForest fs (t :: ts) := by
      simp [presentForest]
    rw [← h3]
    exact List.Perm.trans List.perm_append_comm (List.Perm.append_left _ ih)

/-- Processing the paths of a well-formed forest from the front of the
worklist consumes exactly `forestSize` iterations, after which the loop
continues on the remaining worklist having visited, in some order, exactly
the forest's present descriptor paths. -/
lemma readAux_forest (fs : RulesFS) (rootName : String) :
    ∀ n ts, forestSize ts = n → (∀ t ∈ ts, TWF fs t) →
      ∀ rest m vis fuel, ∃ m2 ext, List.Perm ext (presentForest fs ts) ∧
        readAux fs rootName (n + fuel) (List.map DirTree.path ts ++ rest) m vis =
          readAux fs rootName fuel rest m2 (vis ++ ext) := by
  intro n
  induction n using Nat.strong_induction_on with
  | _ n ih =>
    intro ts hsize hwf rest m vis fuel
    cases ts with
    | nil =>
      refine ⟨m, [], List.Perm.refl _, ?_⟩
      simp only [forestSize] at hsize
      subst hsize
      simp [presentForest]
    | cons t ts2 =>
      have hwt := hwf _ (List.mem_cons_self _ _)
      cases hwt with
      | miss hl =>
        simp only [forestSize, DirTree.size] at hsize
        have hn : n + fuel = (forestSize ts2 + fuel) + 1 := by omega
        have hlt : forestSize ts2 < n := by omega
        rw [hn]
        simp only [List.map_cons, List.cons_append, readAux, DirTree.path, hl,
          List.append_eq]
        obtain ⟨m2, ext, hperm, heq⟩ :=
          ih (forestSize ts2) hlt ts2 rfl
            (fun c hc => hwf c (List.mem_cons_of_mem _ hc)) rest m vis fuel
        refine ⟨m2, ext, ?_, heq⟩
        simpa [presentForest, DirTree.presentPaths, hl] using hperm
      | node hl hcs hkids =>
        rename_i p cs r
        simp only [forestSize, DirTree.size] at hsize
        have hn : n + fuel = (forestSize cs + (forestSize ts2 + fuel)) + 1 := by omega
        have hlt1 : forestSize cs.reverse < n := by rw [forestSize_reverse]; omega
        have hlt2 : forestSize ts2 < n := by omega
        rw [hn]
        simp only [List.map_cons, List.cons_append, readAux, DirTree.path, hl,
          List.append_eq]
        have hws : (subdirRulesMkPaths r).reverse =
            List.map DirTree.path cs.reverse := by
          rw [← hcs, List.map_reverse]
        rw [hws]
        obtain ⟨m1, ext1, hperm1, heq1⟩ :=
          ih (forestSize cs.reverse) hlt1 cs.reverse rfl
            (fun c hc => hkids c (List.mem_reverse.mp hc))
            (List.map DirTree.path ts2 ++ rest)
            (processDescriptor rootName m p r)
            (vis ++ [p]) (forestSize ts2 + fuel)
        rw [forestSize_reverse] at heq1
        rw [heq1]
        obtain ⟨m2, ext2, hperm2, heq2⟩ :=
          ih (forestSize ts2) hlt2 ts2 rfl
            (fun c hc => hwf c (List.mem_cons_of_mem _ hc)) rest m1
            ((vis ++ [p]) ++ ext1) fuel
        rw [heq2]
        refine ⟨m2, ([p] ++ ext1) ++ ext2, ?_, by simp⟩
        have hp1 : List.Perm ext1 (presentForest fs cs) :=
          hperm1.trans (presentForest_reverse_perm fs cs)
        have hall : List.Perm (([p] ++ ext1) ++ ext2)
            (([p] ++ presentForest fs cs) ++ presentForest fs ts2) :=
          List.Perm.append (List.Perm.append_left [p] hp1) hperm2
        simpa [presentForest, DirTree.presentPaths, hl, List.append_assoc]
          using hall

/-- **C1, amended.**  The worklist loop of `_read_rules_mks` keeps no
visited set, so on cyclic subdirectory references it never terminates
(`c1_cycle_no_termination`).  What does hold: whenever the reference
structure reachable from the root descriptor is a finite tree — no cycles
and no repeated references, captured by a well-formed `DirTree` rooted at
`Rules.mk` with distinct present paths — the loop terminates and parses each
reachable (existing) descriptor exactly once. -/
theorem c1_tree_traversal (fs : RulesFS) (rootName : String) (t : DirTree)
    (hroot : t.path = ["Rules.mk"]) (hwf : TWF fs t)
    (hnodup : (DirTree.presentPaths fs t).Nodup) :
    ∃ fuel vis, readVisits fs rootName fuel = some vis ∧
      List.Perm vis (DirTree.presentPaths fs t) ∧ vis.Nodup := by
  obtain ⟨m2, ext, hperm, heq⟩ :=
    readAux_forest fs rootName (forestSize [t]) [t] rfl
      (by intro c hc; rcases List.mem_singleton.mp hc with rfl; exact hwf)
      [] [] [] 0
  have hpf : presentForest fs [t] = DirTree.presentPaths fs t := by
    simp [presentForest]
  rw [hpf] at hperm
  refine ⟨forestSize [t] + 0, ext, ?_, hperm, hperm.nodup_iff.mpr hnodup⟩
  unfold readVisits
  rw [show ([["Rules.mk"]] : List FPath) = List.map DirTree.path [t] ++ [] by
    simp [hroot]]
  rw [heq]
  rfl

/-- The tree used to witness `c1_tree_traversal`: a root declaring one
subdirectory `a` that has its own descriptor and no further references. -/
def fsTreeW : RulesFS :=
  [(["Rules.mk"], ⟨[], ["a"]⟩), (["a", "Rules.mk"], ⟨[], []⟩)]

/-- The reference tree of `fsTreeW`. -/
def treeW : DirTree :=
  .node ["Rules.mk"] [.node ["a", "Rules.mk"] []]

/-- Witness for `c1_tree_traversal` on the concrete two-descriptor tree
`fsTreeW`. -/
theorem c1_tree_traversal_witness :
    TWF fsTreeW treeW ∧ (DirTree.presentPaths fsTreeW treeW).Nodup ∧
      ∃ fuel vis, readVisits fsTreeW "root" fuel = some vis ∧
        List.Perm vis (DirTree.presentPaths fsTreeW treeW) ∧ vis.Nodup := by
  have htwf : TWF fsTreeW treeW := by
    refine TWF.node (show fsLookup fsTreeW ["Rules.mk"] = some ⟨[], ["a"]⟩ from rfl)
      (by simp [treeW, DirTree.path, subdirRulesMkPaths]) ?_
    intro c hc
    rcases List.mem_singleton.mp hc with rfl
    exact TWF.node (show fsLookup fsTreeW ["a", "Rules.mk"] = some ⟨[], []⟩ from rfl)
      (by simp [DirTree.path, subdirRulesMkPaths]) (by intro c hc; cases hc)
  exact ⟨htwf, by decide, c1_tree_traversal fsTreeW "root" treeW rfl htwf (by decide)⟩

/-! ### Include-path rendering (`_create_build_vars`, build.py lines 128-142) -/

/-- Python `str.upper()`: uppercase each character (the include-path values
are ASCII; `Char.toUpper` matches `upper()` there). -/
def pyUpper (s : String) : String :=
  String.mk (s.toList.map Char.toUpper)

/-- Python `sep.join(parts)`. -/
def pyJoin (sep : String) : List String → String
  | [] => ""
  | [x] => x
  | x :: y :: rest => x ++ sep ++ pyJoin sep (y :: rest)

/-- build.py lines 128-132: `INCDIR` starts as the `*NONE` sentinel and is
replaced by the single-quoted, space-joined list exactly when the include
path is non-empty and its elementwise uppercasing differs from `["*NONE"]`. -/
def incdirOf (includePath : List String) : String :=
  if 0 < includePath.length ∧ includePath.map pyUpper ≠ ["*NONE"] then
    "'" ++ pyJoin "' '" includePath ++ "'"
  else "*NONE"

/-- build.py line 141: `unquotedINCDIR := ' '.join(includePath)`. -/
def unquotedIncdirOf (includePath : List String) : String :=
  pyJoin " " includePath

/-- Concatenation of a list of strings. -/
def concatAll : List String → String
  | [] => ""
  | s :: rest => s ++ concatAll rest

/-- Python `s.replace("'", "''")` (build.py line 142): every single-quote
character is doubled. -/
def doubleQuotes (s : String) : String :=
  concatAll (s.toList.map (fun ch => if ch = '\'' then "''" else String.mk [ch]))

/-- build.py line 142: `doublequotedINCDIR := incdir.replace("'", "''")`. -/
def doublequotedIncdirOf (includePath : List String) : String :=
  doubleQuotes (incdirOf includePath)

/-- **C6.**  Include-path rendering in the emitted variable file: an empty
include path, or a single element equal to `*NONE` case-insensitively,
renders `INCDIR` as the literal sentinel `*NONE`; the two-element path
`["A", "B"]` renders `INCDIR` as `'A' 'B'`, `unquotedINCDIR` as `A B`, and
`doublequotedINCDIR` as the quoted form with every single-quote character
doubled. -/
theorem c6_incdir_rendering :
    incdirOf [] = "*NONE" ∧
    (∀ s : String, pyUpper s = "*NONE" → incdirOf [s] = "*NONE") ∧
    incdirOf ["A", "B"] = "'A' 'B'" ∧
    unquotedIncdirOf ["A", "B"] = "A B" ∧
    doublequotedIncdirOf ["A", "B"] = "''A'' ''B''" := by
  refine ⟨by decide, ?_, by decide, by decide, by decide⟩
  intro s hs
  simp [incdirOf, hs]

/-- Witness for the case-insensitive branch of `c6_incdir_rendering` at the
concrete include path `["*none"]`. -/
theorem c6_incdir_rendering_witness :
    pyUpper "*none" = "*NONE" ∧ incdirOf ["*none"] = "*NONE" :=
  ⟨by decide, c6_incdir_rendering.2.1 "*none" (by decide)⟩

/-! ### Output classification and the build result (`make`, build.py
lines 164-183) -/

/-- Python `str.split()` with no argument: split on runs of whitespace and
drop empty pieces.  `cur` holds the current word, reversed. -/
def splitWsAux : List Char → List Char → List (List Char)
  | [], [] => []
  | [], cur => [cur.reverse]
  | c :: rest, cur =>
    if c.isWhitespace then
      match cur with
      | [] => splitWsAux rest []
      | _ :: _ => cur.reverse :: splitWsAux rest []
    else splitWsAux rest (c :: cur)

/-- Python `line.split()`. -/
def pySplit (s : String) : List String :=
  (splitWsAux s.toList []).map (fun l => String.mk l)

/-- Whether `needle` occurs as a contiguous run inside the second list
(Python's `in` on strings). -/
def hasSublist (needle : List Char) : List Char → Bool
  | [] => needle.isPrefixOf []
  | c :: rest => needle.isPrefixOf (c :: rest) || hasSublist needle rest

/-- Python `marker in line`. -/
def containsMarker (marker line : String) : Bool :=
  hasSublist marker.toList line.toList

/-- The two per-instance classification lists of `BuildEnv`
(`failed_targets`, `success_targets`, build.py lines 39-40, 62-63). -/
structure TargetLists where
  failed : List String
  succeeded : List String
deriving DecidableEq

/-- Python `s.split(sep)` for a one-character separator: split at every
occurrence, keeping empty pieces. -/
def splitOnChar (sep : Char) : List Char → List (List Char)
  | [] => [[]]
  | c :: rest =>
    let r := splitOnChar sep rest
    if c = sep then [] :: r
    else
      match r with
      | [] => [[c]]
      | w :: ws => (c :: w) :: ws

/-- Python `s.split("!")`. -/
def pySplitBang (s : String) : List String :=
  (splitOnChar '!' s.toList).map (fun l => String.mk l)

/-- build.py lines 172-179, `handle_make_output`: a line containing the
`Failed to create` marker appends `line.split()[-1].split("!")[0]` to the
failed list; a line containing `was created successfully!` appends
`line.split()[1]` to the success list.  (The `getLastD`/`getD`/`headD`
defaults are never used on a marker-bearing line, which always has enough
non-whitespace tokens; Python would raise there instead.) -/
def handleMakeOutput (acc : TargetLists) (line : String) : TargetLists :=
  let acc1 :=
    if containsMarker "Failed to create" line then
      { acc with failed :=
          acc.failed ++ [(pySplitBang ((pySplit line).getLastD "")).headD ""] }
    else acc
  if containsMarker "was created successfully!" line then
    { acc1 with succeeded := acc1.succeeded ++ [(pySplit line).getD 1 ""] }
  else acc1

/-- The classification `make` accumulates over the streamed executor
output, starting from the empty lists set up in `__init__`. -/
def processOutput (lines : List String) : TargetLists :=
  lines.foldl handleMakeOutput ⟨[], []⟩

/-- build.py lines 181-183: `make` returns `not self.failed_targets`.  The
value returned by `run_command` — the external process's exit status — is
discarded, so the result depends only on the classified output lines. -/
def makeReturns (lines : List String) (exitCode : Int) : Bool :=
  let _ := exitCode
  (processOutput lines).failed.isEmpty

/-- **C7.**  Given executor output with one line carrying the
`Failed to create` marker naming `T1` and one line carrying the
`was created successfully!` marker naming `T2`, the driver classifies
failed = `[T1]`, succeeded = `[T2]`, and the overall result is `false`.
In general `make` returns `true` iff the classified failed-target count is
zero, and the result is independent of the external process's exit code. -/
theorem c7_output_classification :
    (processOutput ["Failed to create T1!",
      "=== T2 was created successfully!"]).failed = ["T1"] ∧
    (processOutput ["Failed to create T1!",
      "=== T2 was created successfully!"]).succeeded = ["T2"] ∧
    makeReturns ["Failed to create T1!",
      "=== T2 was created successfully!"] 0 = false ∧
    (∀ (lines : List String) (ec : Int),
      (makeReturns lines ec = true ↔ (processOutput lines).failed.length = 0) ∧
      ∀ ec2 : Int, makeReturns lines ec = makeReturns lines ec2) := by
  refine ⟨by decide, by decide, by decide, ?_⟩
  intro lines ec
  constructor
  · rw [makeReturns]
    rw [List.isEmpty_iff_length_eq_zero]
  · intro ec2
    rfl

/-! ### Target resolution in `__init__` (build.py lines 66-71) -/

/-- The error raised when a requested source file has no entry in the target
map: in build.py line 69 this is Python's `KeyError` from
`self.target_maps[src]`; the specification names it `UnknownTargetError`. -/
inductive InitError : Type where
  | unknownTarget : InitError
deriving DecidableEq

/-- build.py line 69, `[self.target_maps[src] for src in srcs]`: translate
the sources left to right, the first one missing from the map raising. -/
def lookupAll (tmap : TMap) : List String → Except InitError (List String)
  | [] => .ok []
  | s :: rest =>
    match tmFind tmap s with
    | none => .error .unknownTarget
    | some t =>
      match lookupAll tmap rest with
      | .ok ts => .ok (t :: ts)
      | .error e => .error e

/-- build.py lines 66-71: explicitly requested targets win; otherwise
requested sources are translated through the target map; with neither, the
target list defaults to the single goal `all`. -/
def resolveTargets (targets srcs : List String) (tmap : TMap) :
    Except InitError (List String) :=
  if targets ≠ [] then .ok targets
  else if srcs ≠ [] then lookupAll tmap srcs
  else .ok ["all"]

/-- The executor invocations one build performs: when `__init__` raises
while resolving the target list, construction aborts and `make` (which
performs the single external invocation, build.py lines 80-85 and 181) is
never reached; otherwise there is exactly one invocation with the resolved
goals. -/
def executorInvocations (targets srcs : List String) (tmap : TMap) :
    List (List String) :=
  match resolveTargets targets srcs tmap with
  | .ok goals => [goals]
  | .error _ => []

lemma lookupAll_missing (tmap : TMap) :
    ∀ (srcs : List String) (s : String), s ∈ srcs → tmFind tmap s = none →
      lookupAll tmap srcs = .error .unknownTarget := by
  intro srcs
  induction srcs with
  | nil => intro s h _; cases h
  | cons a rest ih =>
    intro s hs hn
    rcases List.mem_cons.mp hs with rfl | hs
    · simp [lookupAll, hn]
    · cases ha : tmFind tmap a with
      | none => simp [lookupAll, ha]
      | some t => simp [lookupAll, ha, ih s hs hn]

/-- **C8.**  A build requested by source files where some source has no
entry in the target map fails during construction with the unknown-target
error (Python `KeyError`, the spec's `UnknownTargetError`), and the external
executor is never invoked; and with neither explicit targets nor sources,
the target list defaults to the single goal `all`. -/
theorem c8_unknown_source_aborts (targets srcs : List String) (tmap : TMap)
    (s : String) (h1 : targets = []) (h2 : s ∈ srcs) (h3 : tmFind tmap s = none) :
    resolveTargets targets srcs tmap = .error .unknownTarget ∧
    executorInvocations targets srcs tmap = [] ∧
    (∀ tm : TMap, resolveTargets [] [] tm = .ok ["all"]) := by
  subst h1
  have hsrcs : srcs ≠ [] := by rintro rfl; cases h2
  have herr := lookupAll_missing tmap srcs s h2 h3
  refine ⟨?_, ?_, fun tm => rfl⟩
  · simp [resolveTargets, hsrcs, herr]
  · simp [executorInvocations, resolveTargets, hsrcs, herr]

/-- Witness for `c8_unknown_source_aborts`: requesting the build of source
`missing.c` against a map that only knows `present.c`. -/
theorem c8_unknown_source_aborts_witness :
    ("missing.c" : String) ∈ ["missing.c"] ∧
      tmFind [("present.c", "t")] "missing.c" = none ∧
      (resolveTargets [] ["missing.c"] [("present.c", "t")] =
          .error .unknownTarget ∧
        executorInvocations [] ["missing.c"] [("present.c", "t")] = [] ∧
        (∀ tm : TMap, resolveTargets [] [] tm = .ok ["all"])) :=
  ⟨by decide, by decide,
    c8_unknown_source_aborts [] ["missing.c"] [("present.c", "t")] "missing.c"
      rfl (by decide) (by decide)⟩

/-! ### Temporary-artifact lifecycle (build.py lines 50-51, 106-112, 75-76,
164-188) -/

/-- The on-disk state of one build's temporary artifacts: the `mkstemp`
build-variables file and the `.Rules.mk.build` descriptor copies. -/
structure Disk where
  varsFilePresent : Bool
  copies : List String
deriving DecidableEq

/-- The recorded tmp-file list one run consults in `_post_make`. -/
structure TmpEnv where
  tmpFiles : List String
deriving DecidableEq

/-- build.py lines 50-51 and 106-112: `__init__` creates the variables file
(`mkstemp`) and `_create_build_vars` writes one `.Rules.mk.build` beside
every discovered `Rules.mk`, appending each to `tmp_files`. -/
def initBuildEnv (descriptorDirs : List String) : Disk × TmpEnv :=
  let copies := descriptorDirs.map (fun d => d ++ "/.Rules.mk.build")
  (⟨true, copies⟩, ⟨copies⟩)

/-- build.py lines 186-188: `_post_make` unlinks every file recorded in
`tmp_files`. -/
def postMake (env : TmpEnv) (d : Disk) : Disk :=
  { d with copies := d.copies.filter (fun c => !(env.tmpFiles.contains c)) }

/-- build.py lines 164-183, `make`: run the external command, then
`_post_make`.  There is no `try`/`finally`: when `run_command` raises
(`cmdRaises = true`) the exception propagates and `_post_make` never runs,
leaving the disk as it was (the `Bool` records that the call raised).
Neither path touches the variables file. -/
def makeRun (cmdRaises : Bool) (env : TmpEnv) (d : Disk) : Disk × Bool :=
  if cmdRaises then (d, true) else (postMake env d, false)

/-- build.py lines 75-76, `__del__`: the finalizer unlinks only the
build-variables file, never the descriptor copies. -/
def delBuildEnv (d : Disk) : Disk :=
  { d with varsFilePresent := false }

/-- **C3, counterexample.**  One descriptor directory, and the external
command raises: `_post_make` is skipped, and even after the finalizer runs
the `.Rules.mk.build` descriptor copy is still on disk — a temporary
artifact remains after a fatal error raised post-creation. -/
theorem c3_fatal_error_leaves_copies :
    (delBuildEnv (makeRun true (initBuildEnv ["."]).2 (initBuildEnv ["."]).1).1).copies
        = ["./.Rules.mk.build"] ∧
      (["./.Rules.mk.build"] : List String) ≠ [] := by decide

/-- **C3, amended.**  Cleanup of the descriptor copies happens only on the
path through `_post_make`: when the external command returns (normally or
with per-target failures), `_post_make` removes every recorded copy, and the
finalizer removes the variables file, leaving no temporary artifact.  But
when the external command raises, `make` propagates the exception before
`_post_make`, so all descriptor copies remain on disk; the finalizer removes
only the variables file. -/
theorem c3_cleanup_paths (descriptorDirs : List String) :
    (delBuildEnv (makeRun false (initBuildEnv descriptorDirs).2
        (initBuildEnv descriptorDirs).1).1).copies = [] ∧
    (delBuildEnv (makeRun false (initBuildEnv descriptorDirs).2
        (initBuildEnv descriptorDirs).1).1).varsFilePresent = false ∧
    (makeRun true (initBuildEnv descriptorDirs).2
        (initBuildEnv descriptorDirs).1).1.copies =
      descriptorDirs.map (fun d => d ++ "/.Rules.mk.build") := by
  refine ⟨?_, rfl, rfl⟩
  simp only [makeRun, delBuildEnv, initBuildEnv, postMake, Bool.false_eq_true,
    if_false, List.filter_eq_nil_iff]
  intro a ha
  simp [ha]

/-! ### Per-instance versus class-level state (build.py lines 37-40,
62-65, 112) -/

/-- The single process-wide list behind the class attribute
`tmp_files: List[Path] = []` (build.py line 37): `self.tmp_files.append(...)`
in `_create_build_vars` (line 112) resolves to the class attribute and
mutates it in place, so every `BuildEnv` instance reads the same list. -/
structure ClassState where
  tmp_files : List String
deriving DecidableEq

/-- The attributes `__init__` assigns on the instance itself (build.py
lines 62-65): `target_maps`, `success_targets`, `failed_targets` are
per-instance. -/
structure InstanceAttrs where
  target_maps : TMap
  success_targets : List String
  failed_targets : List String
deriving DecidableEq

/-- Constructing one `BuildEnv`: append this run's descriptor copies to the
class-level `tmp_files`, and set fresh instance attributes. -/
def newBuildEnv (cs : ClassState) (tmap : TMap) (copies : List String) :
    ClassState × InstanceAttrs :=
  (⟨cs.tmp_files ++ copies⟩, ⟨tmap, [], []⟩)

/-- **C9, counterexample.**  Two `BuildEnv` instances in one process: the
first records tmp file `a`, the second records `b`.  Because `tmp_files` is
a class attribute, the first instance's `self.tmp_files` is the shared list
`["a", "b"]`: it now contains the second instance's file, so the
temporary-file collections are not disjoint and one instance's construction
does affect the other. -/
theorem c9_tmp_files_shared :
    (newBuildEnv (newBuildEnv ⟨[]⟩ [] ["a"]).1 [] ["b"]).1.tmp_files = ["a", "b"] ∧
    "b" ∈ (newBuildEnv (newBuildEnv ⟨[]⟩ [] ["a"]).1 [] ["b"]).1.tmp_files ∧
    ("b" : String) ∉ (["a"] : List String) := by decide

/-- **C9, amended.**  The target map and the success/failed target lists are
assigned on the instance in `__init__` and are fresh per instance —
constructing a second `BuildEnv` leaves them determined solely by that
instance's own construction.  The temporary-file list, however, is the
class attribute: both constructions append to one shared list. -/
theorem c9_instance_state_fresh (cs : ClassState) (tm1 tm2 : TMap)
    (cp1 cp2 : List String) :
    (newBuildEnv cs tm1 cp1).2 = ⟨tm1, [], []⟩ ∧
    (newBuildEnv (newBuildEnv cs tm1 cp1).1 tm2 cp2).2 = ⟨tm2, [], []⟩ ∧
    (newBuildEnv (newBuildEnv cs tm1 cp1).1 tm2 cp2).1.tmp_files =
      cs.tmp_files ++ cp1 ++ cp2 := by
  refine ⟨rfl, rfl, ?_⟩
  simp [newBuildEnv]

/-! ### Variable resolution (`_create_build_vars`, build.py lines 114-123) -/

/-- The two settings resolved per directory (target CCSID and object
library, the `build` values of an `IBMiJson`). -/
structure BuildVals where
  tgt_ccsid : String
  objlib : String
deriving DecidableEq

/-- The optional overrides a directory's `.ibmi.json` build section may
declare. -/
structure IbmiOverride where
  tgt_ccsid : Option String
  objlib : Option String
deriving DecidableEq

/-- Modelled from the spec: `IBMiJson.from_file(path, parent)`
(makei/ibmi_json.py, outside the reviewed sources): when the override file
is absent the parent's settings are returned unchanged (a copy, not a shared
reference); otherwise only the keys explicitly present overlay the parent's
values. -/
def ibmiJsonFromFile (file : Option IbmiOverride) (parent : BuildVals) : BuildVals :=
  match file with
  | none => parent
  | some o => ⟨o.tgt_ccsid.getD parent.tgt_ccsid, o.objlib.getD parent.objlib⟩

/-- The `.ibmi.json` contents across the tree: `ov p` is directory `p`'s
override file, `none` when it has none. -/
abbrev OvMap := FPath → Option IbmiOverride

/-- The Python dict `dir_var_map`, insertion at the front. -/
abbrev DirVarMap := List (FPath × BuildVals)

/-- Dict lookup in `dir_var_map`. -/
def dvFind (m : DirVarMap) (p : FPath) : Option BuildVals :=
  (m.find? (fun kv => kv.1 == p)).map (fun kv => kv.2)

lemma dvFind_cons (k : FPath) (v : BuildVals) (m : DirVarMap) (q : FPath) :
    dvFind ((k, v) :: m) q = if k = q then some v else dvFind m q := by
  by_cases h : k = q
  · subst h
    simp [dvFind, List.find?_cons_of_pos]
  · simp only [dvFind, List.find?]
    rw [show ((k, v).1 == q) = false by simpa using h]
    simp [h]

/-- build.py lines 119-122, `map_ibmi_json_var`: a non-root directory is
resolved by overlaying its `.ibmi.json` on `dir_var_map[path.parents[0]]`.
A parent that was never resolved is a Python `KeyError`, modelled by `none`
flowing through the fold. -/
def mapIbmiJsonVar (ov : OvMap) (acc : Option DirVarMap) (p : FPath) :
    Option DirVarMap :=
  match acc with
  | none => none
  | some m =>
    if p = [] then some m
    else
      match dvFind m p.dropLast with
      | none => none
      | some parentVals => some ((p, ibmiJsonFromFile (ov p) parentVals) :: m)

/-- The sort key of build.py line 116: compare directories by number of
path parts. -/
def depthLE (a b : FPath) : Bool := a.length ≤ b.length

/-- build.py lines 114-123: sort the discovered descriptor directories by
path depth ascending (`subdirs.sort(key=lambda x: len(x.parts))`, a stable
sort, modelled by `mergeSort`), seed `dir_var_map` with the root mapped to
the iproj.json values, then resolve each directory in sorted order. -/
def createDirVarMap (ov : OvMap) (rootVals : BuildVals) (dirs : List FPath) :
    Option DirVarMap :=
  (dirs.mergeSort depthLE).foldl (mapIbmiJsonVar ov) (some [([], rootVals)])

/-- The settings determined by a directory's parent chain alone: the root
takes the project values, and every other directory overlays its own
override file on its parent's chain-resolved settings. -/
def chainResolve (ov : OvMap) (rootVals : BuildVals) : FPath → BuildVals
  | [] => rootVals
  | s :: rest =>
    ibmiJsonFromFile (ov (s :: rest)) (chainResolve ov rootVals ((s :: rest).dropLast))
termination_by p => p.length
decreasing_by simp [List.length_dropLast]

lemma chainResolve_ne_nil (ov : OvMap) (rootVals : BuildVals) (p : FPath)
    (h : p ≠ []) :
    chainResolve ov rootVals p =
      ibmiJsonFromFile (ov p) (chainResolve ov rootVals p.dropLast) := by
  cases p with
  | nil => exact absurd rfl h
  | cons s rest => rw [chainResolve]

/-- `chainResolve` reads the override map only at prefixes of its argument:
agreeing there, two override maps resolve the directory identically. -/
lemma chainResolve_congr (rootVals : BuildVals) :
    ∀ (n : Nat) (d : FPath), d.length = n → ∀ ov1 ov2 : OvMap,
      (∀ q : FPath, q <+: d → ov1 q = ov2 q) →
      chainResolve ov1 rootVals d = chainResolve ov2 rootVals d := by
  intro n
  induction n using Nat.strong_induction_on with
  | _ n ih =>
    intro d hd ov1 ov2 hagree
    cases d with
    | nil => rw [chainResolve, chainResolve]
    | cons s rest =>
      rw [chainResolve, chainResolve]
      rw [hagree (s :: rest) (List.prefix_refl _)]
      have hlt : (s :: rest).dropLast.length < n := by
        rw [List.length_dropLast]
        simp only [List.length_cons] at hd ⊢
        omega
      rw [ih _ hlt (s :: rest).dropLast rfl ov1 ov2
        (fun q hq => hagree q (hq.trans (List.dropLast_prefix _)))]

/-- The invariant of the resolution fold: along a depth-sorted worklist in
which the root is already resolved and every element's parent is already
resolved or appears in the worklist, the fold succeeds, every stored value
is the chain-resolved one, every processed directory ends up stored, stored
entries persist, and the stored keys are exactly the non-root processed
directories plus the previous keys. -/
lemma dirVarMap_go (ov : OvMap) (rootVals : BuildVals) :
    ∀ (l : List FPath) (m : DirVarMap),
      List.Pairwise (fun a b : FPath => a.length ≤ b.length) l →
      (∀ p v, dvFind m p = some v → v = chainResolve ov rootVals p) →
      (∃ v0, dvFind m [] = some v0) →
      (∀ p, p ∈ l → (∃ v, dvFind m p.dropLast = some v) ∨ p.dropLast ∈ l) →
      ∃ m', l.foldl (mapIbmiJsonVar ov) (some m) = some m' ∧
        (∀ p v, dvFind m' p = some v → v = chainResolve ov rootVals p) ∧
        (∀ p, p ∈ l → ∃ v, dvFind m' p = some v) ∧
        (∀ p v, dvFind m p = some v → ∃ w, dvFind m' p = some w) ∧
        List.map Prod.fst m' =
          (l.filter (fun q => !(q == ([] : FPath)))).reverse ++
            List.map Prod.fst m := by
  intro l
  induction l with
  | nil =>
    intro m _ ha _ _
    exact ⟨m, rfl, ha, by simp, fun p v h => ⟨v, h⟩, by simp⟩
  | cons p rest ih =>
    intro m hs ha hb hpar
    by_cases hp : p = []
    · subst hp
      have hstep : mapIbmiJsonVar ov (some m) [] = some m := by
        simp [mapIbmiJsonVar]
      have hpar2 : ∀ q, q ∈ rest →
          (∃ v, dvFind m q.dropLast = some v) ∨ q.dropLast ∈ rest := by
        intro q hq
        rcases hpar q (List.mem_cons_of_mem _ hq) with h | h
        · exact Or.inl h
        · rcases List.mem_cons.mp h with he | he
          · exact Or.inl (he ▸ hb)
          · exact Or.inr he
      obtain ⟨m', h1, h2, h3, h4, h5⟩ := ih m hs.of_cons ha hb hpar2
      refine ⟨m', by simpa [hstep] using h1, h2, ?_, h4, by simpa using h5⟩
      intro q hq
      rcases List.mem_cons.mp hq with rfl | hq
      · obtain ⟨v0, hv0⟩ := hb
        exact h4 [] v0 hv0
      · exact h3 q hq
    · have hplen : 0 < p.length := List.length_pos.mpr hp
      have hpv : ∃ v, dvFind m p.dropLast = some v := by
        rcases hpar p (List.mem_cons_self _ _) with h | h
        · exact h
        · exfalso
          rcases List.mem_cons.mp h with he | he
          · have := congrArg List.length he
            simp only [List.length_dropLast] at this
            omega
          · have hle := (List.pairwise_cons.mp hs).1 _ he
            simp only [List.length_dropLast] at hle
            omega
      obtain ⟨pv, hpvs⟩ := hpv
      have hstep : mapIbmiJsonVar ov (some m) p =
          some ((p, ibmiJsonFromFile (ov p) pv) :: m) := by
        simp [mapIbmiJsonVar, hp, hpvs]
      have hheadval : ibmiJsonFromFile (ov p) pv = chainResolve ov rootVals p := by
        rw [chainResolve_ne_nil ov rootVals p hp, ← ha p.dropLast pv hpvs]
      have ha1 : ∀ q v,
          dvFind ((p, ibmiJsonFromFile (ov p) pv) :: m) q = some v →
            v = chainResolve ov rootVals q := by
        intro q v h
        rw [dvFind_cons] at h
        by_cases hqp : p = q
        · subst hqp
          rw [if_pos rfl] at h
          cases h
          exact hheadval
        · rw [if_neg hqp] at h
          exact ha q v h
      have hb1 : ∃ v0, dvFind ((p, ibmiJsonFromFile (ov p) pv) :: m) [] = some v0 := by
        obtain ⟨v0, hv0⟩ := hb
        exact ⟨v0, by rw [dvFind_cons, if_neg hp]; exact hv0⟩
      have hpar1 : ∀ q, q ∈ rest →
          (∃ v, dvFind ((p, ibmiJsonFromFile (ov p) pv) :: m) q.dropLast = some v) ∨
            q.dropLast ∈ rest := by
        intro q hq
        by_cases h2 : p = q.dropLast
        · exact Or.inl ⟨_, by rw [dvFind_cons, if_pos h2]⟩
        · rcases hpar q (List.mem_cons_of_mem _ hq) with h | h
          · obtain ⟨v, hv⟩ := h
            exact Or.inl ⟨v, by rw [dvFind_cons, if_neg h2]; exact hv⟩
          · rcases List.mem_cons.mp h with he | he
            · exact absurd he.symm h2
            · exact Or.inr he
      obtain ⟨m', h1, h2, h3, h4, h5⟩ :=
        ih ((p, ibmiJsonFromFile (ov p) pv) :: m) hs.of_cons ha1 hb1 hpar1
      refine ⟨m', by simpa [hstep] using h1, h2, ?_, ?_, ?_⟩
      · intro q hq
        rcases List.mem_cons.mp hq with rfl | hq
        · exact h4 q _ (by rw [dvFind_cons, if_pos rfl])
        · exact h3 q hq
      · intro q v hv
        by_cases hqp : p = q
        · exact h4 q _ (by rw [dvFind_cons, if_pos hqp])
        · exact h4 q v (by rw [dvFind_cons, if_neg hqp]; exact hv)
      · rw [h5]
        have : (p :: rest).filter (fun q => !(q == ([] : FPath))) =
            p :: rest.filter (fun q => !(q == ([] : FPath))) := by
          simp [List.filter_cons, hp]
        rw [this, List.reverse_cons, List.append_assoc]
        simp

lemma chainResolve_nil (ov : OvMap) (rootVals : BuildVals) :
    chainResolve ov rootVals [] = rootVals := by
  rw [chainResolve]

/-- The full resolution fold, started as `_create_build_vars` starts it, on
an ancestor-closed directory set: it succeeds, the root carries the project
values, every directory carries its chain-resolved settings, and (for a
duplicate-free directory set) each directory is stored exactly once. -/
lemma createDirVarMap_resolves (ov : OvMap) (rootVals : BuildVals)
    (dirs : List FPath)
    (hclosed : ∀ d ∈ dirs, d.dropLast = [] ∨ d.dropLast ∈ dirs) :
    ∃ m, createDirVarMap ov rootVals dirs = some m ∧
      dvFind m [] = some rootVals ∧
      (∀ d ∈ dirs, dvFind m d = some (chainResolve ov rootVals d)) ∧
      (dirs.Nodup → (List.map Prod.fst m).Nodup) := by
  have hperm : (dirs.mergeSort depthLE).Perm dirs := List.mergeSort_perm dirs depthLE
  have hsorted : List.Pairwise (fun a b : FPath => a.length ≤ b.length)
      (dirs.mergeSort depthLE) := by
    have h0 := @List.sorted_mergeSort FPath depthLE
      (fun a b c hab hbc => by
        simp only [depthLE, decide_eq_true_eq] at hab hbc ⊢; omega)
      (fun a b => by simp only [depthLE, Bool.or_eq_true, decide_eq_true_eq]
                     omega)
      dirs
    exact h0.imp (fun h => by simpa [depthLE] using h)
  have hfind0 : dvFind [([], rootVals)] [] = some rootVals := by
    rw [dvFind_cons, if_pos rfl]
  have ha0 : ∀ p v, dvFind [([], rootVals)] p = some v →
      v = chainResolve ov rootVals p := by
    intro p v h
    rw [dvFind_cons] at h
    by_cases hpn : ([] : FPath) = p
    · subst hpn
      rw [if_pos rfl] at h
      cases h
      exact (chainResolve_nil ov rootVals).symm
    · rw [if_neg hpn] at h
      exact absurd h (by simp [dvFind])
  have hpar0 : ∀ p, p ∈ dirs.mergeSort depthLE →
      (∃ v, dvFind [([], rootVals)] p.dropLast = some v) ∨
        p.dropLast ∈ dirs.mergeSort depthLE := by
    intro p hp
    rcases hclosed p (hperm.mem_iff.mp hp) with h | h
    · exact Or.inl ⟨rootVals, h ▸ hfind0⟩
    · exact Or.inr (hperm.mem_iff.mpr h)
  obtain ⟨m, h1, h2, h3, h4, h5⟩ :=
    dirVarMap_go ov rootVals (dirs.mergeSort depthLE) [([], rootVals)]
      hsorted ha0 ⟨rootVals, hfind0⟩ hpar0
  refine ⟨m, h1, ?_, ?_, ?_⟩
  · obtain ⟨w, hw⟩ := h4 [] rootVals hfind0
    rw [hw, h2 [] w hw, chainResolve_nil]
  · intro d hd
    obtain ⟨v, hv⟩ := h3 d (hperm.mem_iff.mpr hd)
    rw [hv, h2 d v hv]
  · intro hnd
    rw [h5]
    rw [List.nodup_append]
    refine ⟨List.nodup_reverse.mpr (List.Nodup.filter _ (hperm.nodup_iff.mpr hnd)),
      by simp, ?_⟩
    intro a ha hmem
    rcases List.mem_reverse.mp ha with hf
    have := List.of_mem_filter hf
    simp only [List.map_cons, List.map_nil, List.mem_singleton] at hmem
    subst hmem
    simp at this

/-- **C5.**  `_create_build_vars` resolves directories in ascending
path-depth order against the already-resolved immediate parent, the root
resolving from the iproj.json values.  On any ancestor-closed set of
discovered descriptor directories: resolution succeeds; the root carries the
project values; every directory's stored settings equal `chainResolve`, a
function of its parent chain only; each directory is stored exactly once
(no recomputation) when the discovered set is duplicate-free; and replacing
the override map by one that agrees on a directory's chain prefixes — i.e.
changing only siblings' or descendants' overrides — leaves that directory's
resolved settings unchanged. -/
theorem c5_resolution_parent_chain_only (ov : OvMap) (rootVals : BuildVals)
    (dirs : List FPath)
    (hclosed : ∀ d ∈ dirs, d.dropLast = [] ∨ d.dropLast ∈ dirs) :
    ∃ m, createDirVarMap ov rootVals dirs = some m ∧
      dvFind m [] = some rootVals ∧
      (∀ d ∈ dirs, dvFind m d = some (chainResolve ov rootVals d)) ∧
      (dirs.Nodup → (List.map Prod.fst m).Nodup) ∧
      (∀ d ∈ dirs, ∀ ov2 : OvMap, (∀ q : FPath, q <+: d → ov2 q = ov q) →
        ∀ m2, createDirVarMap ov2 rootVals dirs = some m2 →
          dvFind m2 d = dvFind m d) := by
  obtain ⟨m, hm, hroot, hall, hnd⟩ := createDirVarMap_resolves ov rootVals dirs hclosed
  refine ⟨m, hm, hroot, hall, hnd, ?_⟩
  intro d hd ov2 hagree m2 hm2
  obtain ⟨m2', hm2', _, hall2, _⟩ := createDirVarMap_resolves ov2 rootVals dirs hclosed
  rw [hm2'] at hm2
  injection hm2 with hm2e
  subst hm2e
  rw [hall2 d hd, hall d hd]
  rw [chainResolve_congr rootVals d.length d rfl ov2 ov hagree]

/-- A concrete override map for the C5 witness: only directory `a` has an
`.ibmi.json`, overriding the target CCSID. -/
def ovW : OvMap := fun p =>
  if p = ["a"] then some ⟨some "37", none⟩ else none

/-- A concrete ancestor-closed directory set: root, `a`, `a/b`. -/
def dirsW : List FPath := [[], ["a"], ["a", "b"]]

/-- Witness for `c5_resolution_parent_chain_only` on the three-directory
tree `dirsW`. -/
theorem c5_resolution_parent_chain_only_witness :
    (∀ d ∈ dirsW, d.dropLast = [] ∨ d.dropLast ∈ dirsW) ∧
      ∃ m, createDirVarMap ovW ⟨"1208", "LIB1"⟩ dirsW = some m ∧
        dvFind m [] = some ⟨"1208", "LIB1"⟩ ∧
        (∀ d ∈ dirsW, dvFind m d = some (chainResolve ovW ⟨"1208", "LIB1"⟩ d)) ∧
        (dirsW.Nodup → (List.map Prod.fst m).Nodup) ∧
        (∀ d ∈ dirsW, ∀ ov2 : OvMap, (∀ q : FPath, q <+: d → ov2 q = ovW q) →
          ∀ m2, createDirVarMap ov2 ⟨"1208", "LIB1"⟩ dirsW = some m2 →
            dvFind m2 d = dvFind m d) :=
  ⟨by decide, c5_resolution_parent_chain_only ovW ⟨"1208", "LIB1"⟩ dirsW (by decide)⟩

end Makei
